import Mathlib

/-!
# Verification of the lsystems-core rewriting engine

A shallow embedding of the parametric, context-sensitive L-system engine
(`src/iteration.rs`, `src/util.rs`, `src/grammar.rs`, `src/lib.rs`) together
with proofs about it.

Modelling conventions:
* Rust `f64` values are modelled as `ℚ`.  All numeric values the engine
  manipulates in the verified scenarios are small integers or exact decimal
  fractions, where `f64` arithmetic is exact, so `ℚ` is a faithful model
  (`Div` by zero yields `0` in `ℚ` instead of an IEEE infinity, and `powf`
  is modelled exactly only for integer exponents; no verified claim touches
  either case).
* Rust panics (`panic!`, `unwrap`, `assert!`, out-of-range indexing) are
  modelled by `Option`: `none` means the original program aborts.
* `HashMap<char, f64>` is modelled as an association list with the same
  lookup/insert interface (`contains_key`, `get`, `insert`).
* The seeded random generator `StdRng` is modelled as an abstract stream of
  rational draws plus a cursor; a uniform sample in `[low, high)` reads one
  stream element and advances the cursor.  No verified claim depends on the
  concrete distribution, only on when and whether the generator is consumed.
-/

namespace LSys

/-- Binding environment for parameter names, from `iteration.rs`
(`struct Environment`).  The Rust `HashMap<char, f64>` is modelled as an
association list. -/
structure Environment where
  parameter_map : List (Char × ℚ)
deriving DecidableEq

/-- `Environment::new`. -/
def Environment.new : Environment := ⟨[]⟩

/-- Lookup in the parameter map (the `HashMap::get` of the source). -/
def Environment.get? (env : Environment) (c : Char) : Option ℚ :=
  (env.parameter_map.find? (fun pr => pr.1 = c)).map (fun pr => pr.2)

/-- `Environment::has_parameter` (`HashMap::contains_key`). -/
def Environment.has_parameter (env : Environment) (c : Char) : Bool :=
  (env.get? c).isSome

/-- `Environment::define_parameter`.  The source panics when the parameter
is already defined; `none` models that panic. -/
def Environment.define_parameter (env : Environment) (c : Char) (v : ℚ) :
    Option Environment :=
  if env.has_parameter c then none
  else some ⟨(c, v) :: env.parameter_map⟩

/-- Arithmetic expressions, from `iteration.rs` (`enum ArithmeticExpression`). -/
inductive ArithmeticExpression where
  | Add (left right : ArithmeticExpression)
  | Sub (left right : ArithmeticExpression)
  | Mul (left right : ArithmeticExpression)
  | Div (left right : ArithmeticExpression)
  | Pow (left right : ArithmeticExpression)
  | Neg (expr : ArithmeticExpression)
  | Const (x : ℚ)
  | Param (p : Char)
deriving DecidableEq

/-- Rational model of `f64::powf`: exact for integer exponents (the only
case any claim exercises); `0` otherwise. -/
def powQ (b e : ℚ) : ℚ := if e.den = 1 then b ^ e.num else 0

/-- `ArithmeticExpression::eval` (the `Evaluatable` impl).  Evaluating
`Param p` against an environment that lacks `p` panics in the source;
`none` models that panic. -/
def ArithmeticExpression.eval : ArithmeticExpression → Environment → Option ℚ
  | .Add l r, env => do pure ((← l.eval env) + (← r.eval env))
  | .Sub l r, env => do pure ((← l.eval env) - (← r.eval env))
  | .Mul l r, env => do pure ((← l.eval env) * (← r.eval env))
  | .Div l r, env => do pure ((← l.eval env) / (← r.eval env))
  | .Pow l r, env => do pure (powQ (← l.eval env) (← r.eval env))
  | .Neg e, env => do pure (-(← e.eval env))
  | .Const x, _ => some x
  | .Param p, env =>
      if env.has_parameter p then env.get? p else none

/-- Boolean expressions, from `iteration.rs` (`enum BooleanExpression`). -/
inductive BooleanExpression where
  | Not (expr : BooleanExpression)
  | And (left right : BooleanExpression)
  | Or (left right : BooleanExpression)
  | Lth (left right : ArithmeticExpression)
  | Leq (left right : ArithmeticExpression)
  | Gth (left right : ArithmeticExpression)
  | Geq (left right : ArithmeticExpression)
  | Eq (left right : ArithmeticExpression)
  | Const (val : Bool)
deriving DecidableEq

/-- `BooleanExpression::eval`.  Rust's `&&`/`||` short-circuit, so the right
operand is only evaluated when needed; the model preserves that. -/
def BooleanExpression.eval : BooleanExpression → Environment → Option Bool
  | .Not e, env => do pure (!(← e.eval env))
  | .And l r, env => do if (← l.eval env) then r.eval env else pure false
  | .Or l r, env => do if (← l.eval env) then pure true else r.eval env
  | .Lth l r, env => do pure (decide ((← l.eval env) < (← r.eval env)))
  | .Leq l r, env => do pure (decide ((← l.eval env) ≤ (← r.eval env)))
  | .Gth l r, env => do pure (decide ((← l.eval env) > (← r.eval env)))
  | .Geq l r, env => do pure (decide ((← l.eval env) ≥ (← r.eval env)))
  | .Eq l r, env => do pure (decide ((← l.eval env) = (← r.eval env)))
  | .Const b, _ => some b

/-- Module annotations, from `iteration.rs` (`enum ModuleAnnotation`; the
type is renamed here, and the `annotation` fields below are named `annot`,
for tooling reasons only). -/
inductive ModuleAnnot where
  | CreatePatch
deriving DecidableEq

/-- `struct ModuleSignature`: how a module "looks", e.g. `A(x,y,z)`.
`grammar.rs` constructs signatures with an annotation field (`a:optional_annotation()`),
which the matching code never reads. -/
structure ModuleSignature where
  identifier : Char
  parameters : List Char
  annot : Option ModuleAnnot
deriving DecidableEq

/-- `ModuleSignature::parameter_count`. -/
def ModuleSignature.parameter_count (s : ModuleSignature) : Nat :=
  s.parameters.length

/-- `struct Module`: a module instance in an iteration string. -/
structure Module where
  identifier : Char
  parameter_values : List ℚ
  annot : Option ModuleAnnot
deriving DecidableEq

/-- `Module::parameter_count`. -/
def Module.parameter_count (m : Module) : Nat :=
  m.parameter_values.length

/-- `struct ModuleTemplate`: the right side of a rule, e.g. `A(x+1, y)`.
As with signatures, `grammar.rs` fills in an annotation field. -/
structure ModuleTemplate where
  identifier : Char
  parameter_expressions : List ArithmeticExpression
  annot : Option ModuleAnnot
deriving DecidableEq

/-- Evaluate a list of expressions left to right, propagating a panic
(models `self.parameter_expressions.iter().map(|expr| expr.eval(env)).collect()`). -/
def evalExpressions : List ArithmeticExpression → Environment → Option (List ℚ)
  | [], _ => some []
  | e :: es, env => do
      let v ← e.eval env
      let vs ← evalExpressions es env
      pure (v :: vs)

/-- `ModuleTemplate::instantiate`: create an actual module from the template
by evaluating every parameter expression.  The source constructs the
resulting `Module` literal without an annotation, so the produced module
carries none, whatever the template's own annotation is. -/
def ModuleTemplate.instantiate (t : ModuleTemplate) (env : Environment) :
    Option Module :=
  (evalExpressions t.parameter_expressions env).map
    (fun vals => { identifier := t.identifier, parameter_values := vals, annot := none })

/-- `struct ModuleContext`: a module and its immediate surrounding modules. -/
structure ModuleContext where
  left : Option Module
  center : Module
  right : Option Module
deriving DecidableEq

/-- `ModulePattern::extract_parameters`: bind each declared parameter name
positionally to the module's parameter value.  Indexing
`module.parameter_values[i]` panics when the module has fewer values than
the signature has names, and `define_parameter` panics on redefinition;
both panics are `none`. -/
def extract_parameters : List Char → List ℚ → Environment → Option Environment
  | [], _, env => some env
  | _ :: _, [], _ => none
  | p :: ps, v :: vs, env => do
      let env' ← env.define_parameter p v
      extract_parameters ps vs env'

/-- `struct ModulePattern`: the left side of an iteration rule. -/
structure ModulePattern where
  match_left : Option ModuleSignature
  match_center : ModuleSignature
  match_right : Option ModuleSignature
  condition : BooleanExpression
deriving DecidableEq

/-- The right-neighbour block of `ModulePattern::does_match` followed by the
final guard evaluation (the source writes this inline after the left block;
it is split out here because both branches of the left block continue with
it verbatim). -/
def ModulePattern.match_right_block (pat : ModulePattern) (context : ModuleContext)
    (env : Environment) : Option Bool :=
  match pat.match_right with
  | none => pat.condition.eval env
  | some mr =>
    match context.right with
    | none => some false
    | some right =>
      if mr.identifier ≠ right.identifier then some false
      else if mr.parameter_count ≠ right.parameter_count then some false
      else
        match extract_parameters mr.parameters right.parameter_values env with
        | none => none
        | some env' => pat.condition.eval env'

/-- `ModulePattern::does_match`: whether the given module context matches
this pattern.  Order of operations follows the source exactly: center
identifier check, center arity check, center parameter extraction, left
block, right block, guard evaluation. -/
def ModulePattern.does_match (pat : ModulePattern) (context : ModuleContext) :
    Option Bool :=
  if pat.match_center.identifier ≠ context.center.identifier then some false
  else if pat.match_center.parameter_count ≠ context.center.parameter_count then some false
  else
    match extract_parameters pat.match_center.parameters
        context.center.parameter_values Environment.new with
    | none => none
    | some env =>
      match pat.match_left with
      | none => pat.match_right_block context env
      | some ml =>
        match context.left with
        | none => some false
        | some left =>
          if ml.identifier ≠ left.identifier then some false
          else if ml.parameter_count ≠ left.parameter_count then some false
          else
            match extract_parameters ml.parameters left.parameter_values env with
            | none => none
            | some env' => pat.match_right_block context env'

/-- `ModulePattern::bind`: the environment binding the pattern variables to
the context's values, used to instantiate the right side.  The source
`unwrap`s the context's neighbours (valid only after a successful match);
the `unwrap` panic and the `define_parameter` panic are `none`. -/
def ModulePattern.bind (pat : ModulePattern) (context : ModuleContext) :
    Option Environment := do
  let env := Environment.new
  let env ←
    match pat.match_left with
    | none => some env
    | some ml =>
      match context.left with
      | none => none
      | some left => extract_parameters ml.parameters left.parameter_values env
  let env ←
    match pat.match_right with
    | none => some env
    | some mr =>
      match context.right with
      | none => none
      | some right => extract_parameters mr.parameters right.parameter_values env
  extract_parameters pat.match_center.parameters context.center.parameter_values env

/-- `struct Rule`: pattern, replacement templates and probability weight. -/
structure Rule where
  pattern : ModulePattern
  right_side : List ModuleTemplate
  probability : ℚ
deriving DecidableEq

/-- `Rule::is_deterministic`: negative probability means the rule always
applies. -/
def Rule.is_deterministic (r : Rule) : Bool :=
  r.probability < 0

/-- `struct Weighted<T>` from `util.rs`. -/
structure Weighted (T : Type) where
  weight : ℚ
  item : T
deriving DecidableEq

instance {T : Type} [Inhabited T] : Inhabited (Weighted T) := ⟨⟨0, default⟩⟩

/-- The state of the engine's seeded random generator (`StdRng`), modelled
as an abstract stream of rational draws and a cursor.  Nothing proved here
depends on the distribution of the stream. -/
structure RngState where
  stream : Nat → ℚ
  pos : Nat

/-- Model of `rand::distributions::Uniform<f64>` over `[low, high)`. -/
structure Uniform where
  low : ℚ
  high : ℚ
deriving DecidableEq

/-- `Uniform::new(low, high)` panics when `low >= high` (documented
behaviour of the `rand` crate); `none` models that panic. -/
def Uniform.new (low high : ℚ) : Option Uniform :=
  if low < high then some ⟨low, high⟩ else none

/-- Draw one sample from `[low, high)`: consume one stream element,
advance the cursor. -/
def Uniform.sample (u : Uniform) (rng : RngState) : ℚ × RngState :=
  (u.low + rng.stream rng.pos * (u.high - u.low), ⟨rng.stream, rng.pos + 1⟩)

/-- `struct WeightedChoice<'a, T>` from `util.rs`.  The Rust struct borrows
the caller's (mutated) slice; the model stores the slice contents. -/
structure WeightedChoice (T : Type) where
  items : List (Weighted T)
  weight_range : Uniform
deriving DecidableEq

/-- The in-place cumulative-sum loop of `WeightedChoice::new`
(`running_total += item.weight; item.weight = running_total`), starting
from running total `acc`. -/
def cumulate {T : Type} (acc : ℚ) : List (Weighted T) → List (Weighted T)
  | [] => []
  | w :: ws => { w with weight := acc + w.weight } :: cumulate (acc + w.weight) ws

/-- The final running total of the same loop, i.e. the sum of all weights. -/
def totalWeight {T : Type} (l : List (Weighted T)) : ℚ :=
  l.foldl (fun acc w => acc + w.weight) 0

/-- `WeightedChoice::new`: asserts the slice is non-empty, replaces each
weight by the running total, asserts the total is non-zero, and builds the
uniform draw range `[0, total)` (which itself panics when the total is
negative).  Each `assert!`/panic is `none`. -/
def WeightedChoice.new {T : Type} (l : List (Weighted T)) :
    Option (WeightedChoice T) :=
  if l.isEmpty then none
  else
    let items := cumulate 0 l
    let running_total := totalWeight l
    if running_total = 0 then none
    else (Uniform.new 0 running_total).map (fun u => ⟨items, u⟩)

/-- Indexing into the item slice.  The source indexes with `[]` (a panic
when out of range); the correctness theorem shows every access it performs
is in range, so the default value is never produced there. -/
def getW {T : Type} [Inhabited T] (l : List (Weighted T)) (i : Nat) : Weighted T :=
  l.getD i default

/-- The binary-search loop of `WeightedChoice::sample`
(`while modifier > 1 { ... }`).  The fuel argument only bounds the number
of iterations: `modifier` strictly decreases while it exceeds 1, so with
`fuel = modifier` at the call site the fuel is never exhausted. -/
def searchGo {T : Type} [Inhabited T] (items : List (Weighted T)) (sample_weight : ℚ) :
    Nat → Nat → Nat → Nat
  | 0, idx, _ => idx
  | fuel + 1, idx, modifier =>
    if 1 < modifier then
      let i := idx + modifier / 2
      if (getW items i).weight ≤ sample_weight then
        searchGo items sample_weight fuel i ((modifier + 1) / 2)
      else
        searchGo items sample_weight fuel idx (modifier / 2)
    else idx

/-- The draw-independent part of `WeightedChoice::sample`: given the value
drawn from the uniform range, pick the item. -/
def WeightedChoice.sampleAt {T : Type} [Inhabited T] (wc : WeightedChoice T)
    (sample_weight : ℚ) : T :=
  if sample_weight < (getW wc.items 0).weight then (getW wc.items 0).item
  else
    let idx := searchGo wc.items sample_weight wc.items.length 0 wc.items.length
    (getW wc.items (idx + 1)).item

/-- `WeightedChoice::sample` (the `Distribution<T>` impl): draw a value
from the uniform range, then select the item. -/
def WeightedChoice.sample {T : Type} [Inhabited T] (wc : WeightedChoice T)
    (rng : RngState) : T × RngState :=
  let (sample_weight, rng') := wc.weight_range.sample rng
  (wc.sampleAt sample_weight, rng')

instance : Inhabited Rule :=
  ⟨{ pattern := { match_left := none,
                  match_center := { identifier := 'A', parameters := [], annot := none },
                  match_right := none,
                  condition := .Const true },
     right_side := [], probability := 0 }⟩

/-- The context construction at position `i` of the loop body of
`IterationEngine::iterate`: the left neighbour exists when `i > 0`, the
right neighbour when `i < len - 1`. -/
def buildContext (m : Module) (s : List Module) (i : Nat) : ModuleContext :=
  { left := if 0 < i then s.get? (i - 1) else none,
    center := m,
    right := if i < s.length - 1 then s.get? (i + 1) else none }

/-- The rule-collection loop of `IterationEngine::iterate`
(`for rule in &self.rules { if rule.pattern.does_match(&context) ... }`),
propagating a panic inside `does_match`. -/
def collectMatching : List Rule → ModuleContext → Option (List Rule)
  | [], _ => some []
  | r :: rs, context => do
      let b ← r.pattern.does_match context
      let rest ← collectMatching rs context
      pure (if b then r :: rest else rest)

/-- The rule-selection step of the loop body of `IterationEngine::iterate`
(the `let chosen_match = match deterministic_matches.len() { ... }`):
if any matching rule is deterministic, the first one wins and the random
generator is untouched; otherwise a weighted choice over the matching
rules' probabilities is built and sampled. -/
def chooseMatch (matching_rules : List Rule) (rng : RngState) :
    Option (Rule × RngState) :=
  match matching_rules.filter Rule.is_deterministic with
  | [] => do
      let items := matching_rules.map (fun r => Weighted.mk r.probability r)
      let wc ← WeightedChoice.new items
      pure (wc.sample rng)
  | first :: _ => some (first, rng)

/-- Instantiate every template of a rule's right side in order
(`for template in &chosen_match.right_side { ... push(template.instantiate(&env)) }`). -/
def instantiateAll : List ModuleTemplate → Environment → Option (List Module)
  | [], _ => some []
  | t :: ts, env => do
      let m ← t.instantiate env
      let ms ← instantiateAll ts env
      pure (m :: ms)

/-- The per-position body of the loop of `IterationEngine::iterate`:
collect the matching rules; when none match copy the module unchanged,
otherwise choose a rule, bind its pattern and instantiate its right side.
Returns the block of modules this position contributes to the new module
string, and the (possibly advanced) random generator. -/
def rewriteModule (rules : List Rule) (context : ModuleContext) (m : Module)
    (rng : RngState) : Option (List Module × RngState) := do
  let matching_rules ← collectMatching rules context
  if matching_rules.isEmpty then
    pure ([m], rng)
  else do
    let (chosen_match, rng') ← chooseMatch matching_rules rng
    let env ← chosen_match.pattern.bind context
    let block ← instantiateAll chosen_match.right_side env
    pure (block, rng')

/-- The position loop of `IterationEngine::iterate`
(`for (i, module) in self.module_string.iter().enumerate()`): `s` is the
whole previous-generation string (used for context windows), the first
list argument is its suffix starting at position `i`. -/
def rewriteFrom (rules : List Rule) (s : List Module) :
    List Module → Nat → RngState → Option (List Module × RngState)
  | [], _, rng => some ([], rng)
  | m :: rest, i, rng => do
      let context := buildContext m s i
      let (block, rng') ← rewriteModule rules context m rng
      let (tail, rng'') ← rewriteFrom rules s rest (i + 1) rng'
      pure (block ++ tail, rng'')

/-- One full generation: rewrite every position of `s` against read-only
context windows over `s` itself, concatenating the produced blocks. -/
def rewriteGeneration (rules : List Rule) (s : List Module) (rng : RngState) :
    Option (List Module × RngState) :=
  rewriteFrom rules s s 0 rng

/-- The generation loop of `IterationEngine::iterate`
(`for i in 0..self.iteration_depth`). -/
def iterateSteps (rules : List Rule) :
    Nat → List Module → RngState → Option (List Module × RngState)
  | 0, s, rng => some (s, rng)
  | n + 1, s, rng => do
      let (s', rng') ← rewriteGeneration rules s rng
      iterateSteps rules n s' rng'

/-- `struct IterationEngine`.  The source's `axiom` field is named
`axiomSeq` here for tooling reasons only. -/
structure IterationEngine where
  axiomSeq : List Module
  module_string : List Module
  rules : List Rule
  iteration_depth : Nat
  rng : RngState

/-- `IterationEngine::iterate`: reset the module string to the axiom, then
run `iteration_depth` generations.  `none` models a panic anywhere inside
(pattern-environment clashes, unbound guard parameters, a non-positive
total sampling weight, ...). -/
def IterationEngine.iterate (e : IterationEngine) : Option IterationEngine := do
  let (s, rng') ← iterateSteps e.rules e.iteration_depth e.axiomSeq e.rng
  pure { e with module_string := s, rng := rng' }

/-!
## The grammar (`grammar.rs`)

The source defines its grammar with the `rust-peg` crate.  Each PEG rule is
modelled as a function `List Char → Option (result × rest)`: `none` is a
parse failure (which backtracks at ordered-choice points), `some` returns
the parsed value and the remaining input.  Repetition (`*`, `**`) and
recursive rules carry a fuel argument that only bounds the recursion
depth / number of iterations; the public entry points pass
`input.length + 1`, which is sufficient because every iteration of every
repetition in this grammar consumes at least one character.  The
`precedence!{}` blocks are modelled by the same precedence-climbing
strategy the macro implements, with the source's level structure and
in-level alternative order. -/

abbrev Parser (α : Type) : Type := List Char → Option (α × List Char)

instance : Monad Parser where
  pure a := fun s => some (a, s)
  bind p f := fun s =>
    match p s with
    | some (a, s') => f a s'
    | none => none

instance : Alternative Parser where
  failure := fun _ => none
  orElse p q := fun s =>
    match p s with
    | none => q () s
    | r => r

/-- Consume a literal token. -/
def lit (tok : String) : Parser Unit := fun s =>
  if tok.toList.isPrefixOf s then some ((), s.drop tok.toList.length) else none

/-- Consume one character satisfying `f`. -/
def pSat (f : Char → Bool) : Parser Char := fun s =>
  match s with
  | c :: rest => if f c then some (c, rest) else none
  | [] => none

/-- Try a parser; on failure succeed with `none` consuming nothing
(PEG `?`). -/
def pOpt {α : Type} (p : Parser α) : Parser (Option α) := fun s =>
  match p s with
  | some (a, s') => some (some a, s')
  | none => some (none, s)

/-- `rule padding() = whitespace()*` with `whitespace = [' '|'\t']+`:
drop any run of spaces and tabs. -/
def padding : Parser Unit := fun s =>
  some ((), s.dropWhile (fun c => c == ' ' || c == '\t'))

/-- PEG `p*`: greedy repetition, no backtracking into earlier items. -/
def pMany {α : Type} (p : Parser α) : Nat → Parser (List α)
  | 0 => fun s => some ([], s)
  | fuel + 1 => fun s =>
    match p s with
    | none => some ([], s)
    | some (a, s1) =>
      match pMany p fuel s1 with
      | some (as, s2) => some (a :: as, s2)
      | none => none

/-- The tail of PEG `p ** sep`: repeatedly try `sep` then `p`; when the
pair fails, backtrack over the partial separator. -/
def sepTail {α : Type} (p : Parser α) (sep : Parser Unit) : Nat → Parser (List α)
  | 0 => fun s => some ([], s)
  | fuel + 1 => fun s =>
    match sep s with
    | none => some ([], s)
    | some (_, s1) =>
      match p s1 with
      | none => some ([], s)
      | some (a, s2) =>
        match sepTail p sep fuel s2 with
        | some (as, s3) => some (a :: as, s3)
        | none => none

/-- PEG `p ** sep`: zero or more `p` separated by `sep`. -/
def sepBy {α : Type} (fuel : Nat) (p : Parser α) (sep : Parser Unit) :
    Parser (List α) := fun s =>
  match p s with
  | none => some ([], s)
  | some (a, s1) =>
    match sepTail p sep fuel s1 with
    | some (as, s2) => some (a :: as, s2)
    | none => none

/-- `rule identifier()`: one character out of the fixed alphabet
(letters, digits, and the punctuation reserved for turtle commands:
`!`(33) `#`(35) `&`(38) `'`(39) `+`(43) `-`(45) `.`(46) `/`(47) `[`(91)
`\`(92) `]`(93) `^`(94) `|`(124) and the two curly brackets 123/125). -/
def isIdentChar (c : Char) : Bool :=
  c.isAlpha || c.isDigit ||
    [33, 35, 38, 39, 43, 45, 46, 47, 91, 92, 93, 94, 123, 124, 125].contains c.toNat

/-- Digit run to a natural number. -/
def digitsToNat (ds : List Char) : Nat :=
  ds.foldl (fun n c => n * 10 + (c.toNat - 48)) 0

/-- One or more digits. -/
def digits1 : Parser (List Char) := fun s =>
  let ds := s.takeWhile Char.isDigit
  if ds.isEmpty then none else some (ds, s.drop ds.length)

/-- `rule number() = ['+'|'-']? digit+ ("." digit+)?`, then Rust parses the
matched text as `f64`.  Decimal literals are modelled exactly in `ℚ`.
When a `.` is not followed by digits the optional fraction group fails and
backtracks, leaving the `.` unconsumed. -/
def number : Parser ℚ := fun s =>
  let signAndRest : ℚ × List Char :=
    match s with
    | '-' :: rest => (-1, rest)
    | '+' :: rest => (1, rest)
    | _ => (1, s)
  match digits1 signAndRest.2 with
  | none => none
  | some (ds, s2) =>
    let intPart : ℚ := (digitsToNat ds : ℚ)
    match s2 with
    | '.' :: s3 =>
      match digits1 s3 with
      | some (fs, s4) =>
          some (signAndRest.1 * (intPart + (digitsToNat fs : ℚ) / (10 : ℚ) ^ fs.length), s4)
      | none => some (signAndRest.1 * intPart, s2)
    | _ => some (signAndRest.1 * intPart, s2)

/-- `rule annotation_create_patch() = "~"`. -/
def create_patch_marker : Parser ModuleAnnot := fun s =>
  match s with
  | '~' :: rest => some (.CreatePatch, rest)
  | _ => none

/-- `rule optional_annotation() = (annotation())?` where the only
annotation alternative is the create-patch marker. -/
def optional_annot : Parser (Option ModuleAnnot) :=
  pOpt create_patch_marker

/-- `rule true_false()`: `"true"`, `"false"`, or the wildcard `"*"`. -/
def true_false : Parser Bool :=
  (do lit "true"; pure true) <|> (do lit "false"; pure false) <|>
  (do lit "*"; pure true)

/-- Primary position of the arithmetic `precedence!{}` block: the unary
minus level, then the atoms (`number`, then `parameter_name`), in source
order. -/
def arith_atom : Nat → Parser ArithmeticExpression
  | 0 => fun _ => none
  | fuel + 1 =>
    (do lit "-"; let r ← arith_atom fuel; pure (.Neg r)) <|>
    (do let n ← number; pure (.Const n)) <|>
    (do let p ← pSat Char.isLower; pure (.Param p))

mutual

/-- Parse an arithmetic expression whose top-level operators all have
level `≥ minLevel` (level 1: `+` `-`, level 2: `*` `/`, level 3:
right-associative `^`). -/
def arith_at : Nat → Nat → Parser ArithmeticExpression
  | 0, _ => fun _ => none
  | fuel + 1, minLevel => fun s =>
    match arith_atom (fuel + 1) s with
    | none => none
    | some (lhs, s1) => arith_ops fuel minLevel lhs s1

/-- The operator-consuming loop of the climbing parser for the arithmetic
`precedence!{}` block.  Every operator is surrounded by `padding()` as in
the source; a failed alternative backtracks over that padding. -/
def arith_ops : Nat → Nat → ArithmeticExpression → Parser ArithmeticExpression
  | 0, _, lhs => fun s => some (lhs, s)
  | fuel + 1, minLevel, lhs =>
    (if minLevel ≤ 1 then
      (do padding; lit "+"; padding; let r ← arith_at fuel 2
          arith_ops fuel minLevel (.Add lhs r)) <|>
      (do padding; lit "-"; padding; let r ← arith_at fuel 2
          arith_ops fuel minLevel (.Sub lhs r))
     else failure) <|>
    (if minLevel ≤ 2 then
      (do padding; lit "*"; padding; let r ← arith_at fuel 3
          arith_ops fuel minLevel (.Mul lhs r)) <|>
      (do padding; lit "/"; padding; let r ← arith_at fuel 3
          arith_ops fuel minLevel (.Div lhs r))
     else failure) <|>
    (if minLevel ≤ 3 then
      (do padding; lit "^"; padding; let r ← arith_at fuel 3
          arith_ops fuel minLevel (.Pow lhs r))
     else failure) <|>
    pure lhs

end

/-- `rule arith_expr()`: a full arithmetic expression. -/
def arith_expr (fuel : Nat) : Parser ArithmeticExpression :=
  arith_at fuel 1

/-- The comparison atoms of the boolean `precedence!{}` block, in source
order (`<`, `<=`, `==`, `>=`, `>`); both operands are full arithmetic
expressions and each operator is surrounded by `padding()`. -/
def comparison (fuel : Nat) : Parser BooleanExpression :=
  (do let l ← arith_expr fuel; padding; lit "<"; padding
      let r ← arith_expr fuel; pure (.Lth l r)) <|>
  (do let l ← arith_expr fuel; padding; lit "<="; padding
      let r ← arith_expr fuel; pure (.Leq l r)) <|>
  (do let l ← arith_expr fuel; padding; lit "=="; padding
      let r ← arith_expr fuel; pure (.Eq l r)) <|>
  (do let l ← arith_expr fuel; padding; lit ">="; padding
      let r ← arith_expr fuel; pure (.Geq l r)) <|>
  (do let l ← arith_expr fuel; padding; lit ">"; padding
      let r ← arith_expr fuel; pure (.Gth l r))

mutual

/-- Primary position of the boolean `precedence!{}` block, in the source's
level order: parenthesised boolean expression, the comparisons, prefix
`!`, then the boolean constants. -/
def bool_primary : Nat → Parser BooleanExpression
  | 0 => fun _ => none
  | fuel + 1 =>
    (do lit "("; padding; let c ← bool_expr fuel; padding; lit ")"; pure c) <|>
    comparison (fuel + 1) <|>
    (do lit "!"; let r ← bool_primary fuel; pure (.Not r)) <|>
    (do let b ← true_false; pure (.Const b))

/-- Operator loop for the boolean climbing parser (level 1: `||`,
level 2: `&&`). -/
def bool_ops : Nat → Nat → BooleanExpression → Parser BooleanExpression
  | 0, _, lhs => fun s => some (lhs, s)
  | fuel + 1, minLevel, lhs =>
    (if minLevel ≤ 1 then
      (do padding; lit "||"; padding
          let r ← bool_at fuel 2; bool_ops fuel minLevel (.Or lhs r))
     else failure) <|>
    (if minLevel ≤ 2 then
      (do padding; lit "&&"; padding
          let r ← bool_at fuel 3; bool_ops fuel minLevel (.And lhs r))
     else failure) <|>
    pure lhs

/-- Boolean expression with top-level operators of level `≥ minLevel`. -/
def bool_at : Nat → Nat → Parser BooleanExpression
  | 0, _ => fun _ => none
  | fuel + 1, minLevel => fun s =>
    match bool_primary (fuel + 1) s with
    | none => none
    | some (lhs, s1) => bool_ops fuel minLevel lhs s1

/-- `pub rule boolean_expr()`. -/
def bool_expr (fuel : Nat) : Parser BooleanExpression :=
  bool_at fuel 1

end

/-- `rule condition()`: an optional `":" boolean_expr` suffix, defaulting
to the constant `true`. -/
def condition (fuel : Nat) : Parser BooleanExpression := do
  let e ← pOpt (do padding; lit ":"; padding; bool_expr fuel)
  pure (e.getD (.Const true))

/-- The separator `padding() "," padding()` used between parameter names. -/
def comma_padded : Parser Unit := do
  padding; lit ","; padding

/-- `rule signature_with_parameters()`. -/
def signature_with_parameters (fuel : Nat) : Parser ModuleSignature := do
  let a ← optional_annot
  let x ← pSat isIdentChar
  lit "("; padding
  let ps ← sepBy fuel (pSat Char.isLower) comma_padded
  padding; lit ")"
  pure { identifier := x, parameters := ps, annot := a }

/-- `rule simple_signature()`. -/
def simple_signature : Parser ModuleSignature := do
  let a ← optional_annot
  let x ← pSat isIdentChar
  pure { identifier := x, parameters := [], annot := a }

/-- `rule signature()`. -/
def signature (fuel : Nat) : Parser ModuleSignature :=
  signature_with_parameters fuel <|> simple_signature

/-- `rule left_pattern() = left:signature() padding() "<" padding()`. -/
def left_pattern (fuel : Nat) : Parser ModuleSignature := do
  let l ← signature fuel; padding; lit "<"; padding; pure l

/-- `rule right_pattern() = padding() ">" padding() right:signature()`. -/
def right_pattern (fuel : Nat) : Parser ModuleSignature := do
  padding; lit ">"; padding; signature fuel

/-- `rule pattern()`. -/
def pattern (fuel : Nat) : Parser ModulePattern := do
  let l ← pOpt (left_pattern fuel)
  let c ← signature fuel
  let r ← pOpt (right_pattern fuel)
  let cond ← condition fuel
  pure { match_left := l, match_center := c, match_right := r, condition := cond }

/-- `rule template_with_parameters()`: note the bare `","` separator and
the absence of padding inside the parentheses, exactly as in the source. -/
def template_with_parameters (fuel : Nat) : Parser ModuleTemplate := do
  let a ← optional_annot
  let x ← pSat isIdentChar
  lit "("
  let es ← sepBy fuel (arith_expr fuel) (lit ",")
  lit ")"
  pure { identifier := x, parameter_expressions := es, annot := a }

/-- `rule simple_template()`. -/
def simple_template : Parser ModuleTemplate := do
  let a ← optional_annot
  let x ← pSat isIdentChar
  pure { identifier := x, parameter_expressions := [], annot := a }

/-- `pub rule template()`. -/
def template (fuel : Nat) : Parser ModuleTemplate :=
  template_with_parameters fuel <|> simple_template

/-- `rule template_string() = (padding() template() padding())*`. -/
def template_string (fuel : Nat) : Parser (List ModuleTemplate) :=
  pMany (do padding; let t ← template fuel; padding; pure t) fuel

/-- `rule probability_suffix()`: optional `":" number`, defaulting to the
deterministic sentinel `-1.0`. -/
def probability_suffix : Parser ℚ := do
  let p ← pOpt (do lit ":"; padding; number)
  pure (p.getD (-1))

/-- `pub rule lsystem_rule()`. -/
def lsystem_rule (fuel : Nat) : Parser Rule := do
  let p ← pattern fuel
  padding
  let prob ← probability_suffix
  padding; lit "->"; padding
  let rightside ← template_string fuel
  pure { pattern := p, right_side := rightside, probability := prob }

/-- `rule module_with_parameters()`: bare `","` separator, no inner
padding. -/
def module_with_parameters (fuel : Nat) : Parser Module := do
  let a ← optional_annot
  let x ← pSat isIdentChar
  lit "("
  let ns ← sepBy fuel number (lit ",")
  lit ")"
  pure { identifier := x, parameter_values := ns, annot := a }

/-- `rule simple_module()`. -/
def simple_module : Parser Module := do
  let a ← optional_annot
  let x ← pSat isIdentChar
  pure { identifier := x, parameter_values := [], annot := a }

/-- `pub rule module()`. -/
def module_p (fuel : Nat) : Parser Module :=
  module_with_parameters fuel <|> simple_module

/-- `rule module_string_entry() = padding() module() padding()`. -/
def module_string_entry (fuel : Nat) : Parser Module := do
  padding; let m ← module_p fuel; padding; pure m

/-- `rule rule_list_newline() = (padding() "\n" padding())*`. -/
def rule_list_newline (fuel : Nat) : Parser Unit := do
  let _ ← pMany (do padding; lit "\n"; padding) fuel
  pure ()

/-- `pub rule module_string()` as invoked through the generated parser:
the whole input must be consumed, otherwise the parse fails. -/
def grammar.module_string (input : String) : Option (List Module) :=
  let cs := input.toList
  match pMany (module_string_entry (cs.length + 1)) (cs.length + 1) cs with
  | some (ms, []) => some ms
  | _ => none

/-- `pub rule rule_list() = rs:rule_list_inner() rule_list_newline()` with
`rule_list_inner = lsystem_rule() ** rule_list_newline()`; the whole input
must be consumed. -/
def grammar.rule_list (input : String) : Option (List Rule) :=
  let cs := input.toList
  let fuel := cs.length + 1
  match (do
      let rs ← sepBy fuel (lsystem_rule fuel) (rule_list_newline fuel)
      rule_list_newline fuel
      pure rs : Parser (List Rule)) cs with
  | some (rs, []) => some rs
  | _ => none

/-- The `LSystem` wrapper of `lib.rs`, restricted to the iteration engine
(the drawing and interpretation engines are outside the specified core). -/
structure LSystem where
  iteration_engine : IterationEngine

/-- `LSystem::parse`: parse the axiom string and the rule list, and on
parse failure silently substitute an empty sequence
(`...unwrap_or(Vec::new())`). -/
def LSystem.parse (sys : LSystem) (axiomText rulesText : String) : LSystem :=
  { sys with iteration_engine :=
      { sys.iteration_engine with
          axiomSeq := (grammar.module_string axiomText).getD []
          rules := (grammar.rule_list rulesText).getD [] } }

/-!
## Helper lemmas
-/

theorem cumulate_length {T : Type} (acc : ℚ) (l : List (Weighted T)) :
    (cumulate acc l).length = l.length := by
  induction l generalizing acc with
  | nil => rfl
  | cons w ws ih => simp [cumulate, ih]

theorem cumulate_get {T : Type} (l : List (Weighted T)) (acc : ℚ) (i : Nat)
    (h : i < l.length) (h' : i < (cumulate acc l).length) :
    (cumulate acc l).get ⟨i, h'⟩ =
      ⟨acc + ((l.take (i + 1)).map Weighted.weight).sum, (l.get ⟨i, h⟩).item⟩ := by
  induction l generalizing acc i with
  | nil => exact absurd h (Nat.not_lt_zero i)
  | cons w ws ih =>
    cases i with
    | zero => simp [cumulate]
    | succ n =>
      have hn : n < ws.length := Nat.lt_of_succ_lt_succ h
      have hn' : n < (cumulate (acc + w.weight) ws).length := by
        rw [cumulate_length]; exact hn
      simp only [cumulate, List.get_cons_succ]
      rw [ih (acc + w.weight) n hn hn']
      simp [List.take_succ_cons, add_assoc]

theorem getW_cumulate {T : Type} [Inhabited T] (l : List (Weighted T)) (acc : ℚ)
    (i : Nat) (h : i < l.length) :
    getW (cumulate acc l) i =
      ⟨acc + ((l.take (i + 1)).map Weighted.weight).sum, (l.get ⟨i, h⟩).item⟩ := by
  have h' : i < (cumulate acc l).length := by rw [cumulate_length]; exact h
  rw [getW, List.getD_eq_get _ _ h', cumulate_get l acc i h h']

theorem totalWeight_eq_sum {T : Type} (l : List (Weighted T)) :
    totalWeight l = (l.map Weighted.weight).sum := by
  have key : ∀ (acc : ℚ), l.foldl (fun a w => a + w.weight) acc
      = acc + (l.map Weighted.weight).sum := by
    induction l with
    | nil => intro acc; simp
    | cons w ws ih => intro acc; simp [List.foldl_cons, ih, add_assoc]
  simpa using key 0

/-- A successful `WeightedChoice::new` stores the cumulated list, and its
input was non-empty with a strictly positive total. -/
theorem new_elim {T : Type} {l : List (Weighted T)} {wc : WeightedChoice T}
    (h : WeightedChoice.new l = some wc) :
    wc.items = cumulate 0 l ∧ l ≠ [] ∧ 0 < totalWeight l := by
  unfold WeightedChoice.new Uniform.new at h
  by_cases hemp : l.isEmpty
  · rw [if_pos hemp] at h; cases h
  · rw [if_neg hemp] at h
    by_cases hz : totalWeight l = 0
    · rw [if_pos hz] at h; cases h
    · rw [if_neg hz] at h
      by_cases hpos : (0 : ℚ) < totalWeight l
      · rw [if_pos hpos] at h
        simp only [Option.map_some'] at h
        injection h with h2
        subst h2
        exact ⟨rfl, fun hn => hemp (by rw [hn]; rfl), hpos⟩
      · rw [if_neg hpos] at h; cases h

/-- The all-zero random stream, used to instantiate witnesses. -/
def zeroRng : RngState := ⟨fun _ => 0, 0⟩

/-!
## Claim theorems
-/

/-- C3: for every non-empty weight/item list, `WeightedChoice::new`
succeeds exactly when the weights sum to a strictly positive total;
a zero total trips the source's own `assert!` and a negative total makes
`Uniform::new(0.0, total)` panic, in both cases before any draw is made
(`new` never consumes the random generator). -/
theorem weightedChoice_new_succeeds_iff_positive_total {T : Type}
    (l : List (Weighted T)) (hne : l ≠ []) :
    (WeightedChoice.new l).isSome ↔ 0 < totalWeight l := by
  constructor
  · intro h
    obtain ⟨wc, hwc⟩ := Option.isSome_iff_exists.mp h
    exact (new_elim hwc).2.2
  · intro hpos
    have hemp : l.isEmpty = false := by
      cases l with
      | nil => exact absurd rfl hne
      | cons _ _ => rfl
    unfold WeightedChoice.new Uniform.new
    rw [hemp]
    simp only [Bool.false_eq_true, if_false]
    rw [if_neg (ne_of_gt hpos), if_pos hpos]
    simp

/-- Witness for C3 at a concrete one-element list of total weight 1. -/
theorem weightedChoice_new_succeeds_iff_positive_total_witness :
    (WeightedChoice.new [(⟨1, 0⟩ : Weighted Nat)]).isSome ↔
      0 < totalWeight [(⟨1, 0⟩ : Weighted Nat)] :=
  weightedChoice_new_succeeds_iff_positive_total _ (by decide)

/-- C10: `WeightedChoice::new` overwrites the weight stored at each index
of the caller's slice with the cumulative sum of the original weights up
to and including that index, leaving every item field unchanged. -/
theorem new_replaces_weights_with_cumulative_sums {T : Type}
    (l : List (Weighted T)) (wc : WeightedChoice T)
    (h : WeightedChoice.new l = some wc) (i : Nat) (hi : i < l.length) :
    ∃ hw : i < wc.items.length,
      (wc.items.get ⟨i, hw⟩).weight = ((l.take (i + 1)).map Weighted.weight).sum ∧
      (wc.items.get ⟨i, hw⟩).item = (l.get ⟨i, hi⟩).item := by
  obtain ⟨hitems, -, -⟩ := new_elim h
  have hw : i < wc.items.length := by
    rw [hitems, cumulate_length]; exact hi
  have hc : i < (cumulate 0 l).length := by rw [cumulate_length]; exact hi
  have hval : wc.items.get ⟨i, hw⟩ =
      ⟨((l.take (i + 1)).map Weighted.weight).sum, (l.get ⟨i, hi⟩).item⟩ := by
    rw [List.get_of_eq hitems ⟨i, hw⟩, cumulate_get l 0 i hi, zero_add]
  exact ⟨hw, by rw [hval], by rw [hval]⟩

/-- Witness for C10 at a concrete two-element list: the second stored
weight is `1 + 3 = 4` and the items are untouched. -/
theorem new_replaces_weights_with_cumulative_sums_witness :
    WeightedChoice.new [(⟨1, 10⟩ : Weighted Nat), ⟨3, 20⟩] =
      some ⟨[⟨1, 10⟩, ⟨4, 20⟩], ⟨0, 4⟩⟩ ∧
    (1 : Nat) < [(⟨1, 10⟩ : Weighted Nat), ⟨3, 20⟩].length ∧
    ∃ hw : 1 < (⟨[⟨1, 10⟩, ⟨4, 20⟩], ⟨0, 4⟩⟩ : WeightedChoice Nat).items.length,
      ((⟨[⟨1, 10⟩, ⟨4, 20⟩], ⟨0, 4⟩⟩ : WeightedChoice Nat).items.get ⟨1, hw⟩).weight =
        (([(⟨1, 10⟩ : Weighted Nat), ⟨3, 20⟩].take 2).map Weighted.weight).sum ∧
      ((⟨[⟨1, 10⟩, ⟨4, 20⟩], ⟨0, 4⟩⟩ : WeightedChoice Nat).items.get ⟨1, hw⟩).item =
        ([(⟨1, 10⟩ : Weighted Nat), ⟨3, 20⟩].get ⟨1, by decide⟩).item :=
  ⟨by with_unfolding_all rfl, by decide,
    new_replaces_weights_with_cumulative_sums _ _ (by with_unfolding_all rfl) 1
      (by decide)⟩

/-- C7: with iteration depth 0, `IterationEngine::iterate` leaves the
module string equal to the axiom, element for element (the source copies
the axiom into `module_string` and the generation loop body never runs). -/
theorem depth_zero_returns_axiom_unchanged (e : IterationEngine)
    (h : e.iteration_depth = 0) :
    e.iterate = some { e with module_string := e.axiomSeq } := by
  unfold IterationEngine.iterate
  rw [h]
  rfl

/-- Witness for C7 at a concrete engine of depth 0. -/
theorem depth_zero_returns_axiom_unchanged_witness :
    IterationEngine.iterate
        { axiomSeq := [{ identifier := 'A', parameter_values := [], annot := none }],
          module_string := [], rules := [], iteration_depth := 0, rng := zeroRng } =
      some { axiomSeq := [{ identifier := 'A', parameter_values := [], annot := none }],
             module_string := [{ identifier := 'A', parameter_values := [], annot := none }],
             rules := [], iteration_depth := 0, rng := zeroRng } :=
  depth_zero_returns_axiom_unchanged _ rfl

/-- C8: when parsing the whole axiom string (resp. the whole rule-list
string) fails, `LSystem::parse` hands the engine the empty module sequence
(resp. the empty rule list) — `unwrap_or(Vec::new())` — with no abort and
no surfaced error. -/
theorem parse_failure_yields_empty_results (sys : LSystem)
    (axiomText rulesText : String) :
    (grammar.module_string axiomText = none →
      (sys.parse axiomText rulesText).iteration_engine.axiomSeq = []) ∧
    (grammar.rule_list rulesText = none →
      (sys.parse axiomText rulesText).iteration_engine.rules = []) := by
  constructor <;> intro h <;> simp [LSystem.parse, h]

/-- Witness for C8: `"A("` is not a parsable module string and `"->"` is
not a parsable rule list, and the engine receives `[]` for both. -/
theorem parse_failure_yields_empty_results_witness :
    ((LSystem.mk ⟨[], [], [], 0, zeroRng⟩).parse "A(" "->").iteration_engine.axiomSeq
        = [] ∧
    ((LSystem.mk ⟨[], [], [], 0, zeroRng⟩).parse "A(" "->").iteration_engine.rules
        = [] :=
  ⟨(parse_failure_yields_empty_results _ "A(" "->").1 (by with_unfolding_all rfl),
   (parse_failure_yields_empty_results _ "A(" "->").2 (by with_unfolding_all rfl)⟩

/-- C9: `ModuleTemplate::instantiate` constructs the new module without an
annotation, whatever the template carries (in particular a template parsed
with the leading `~` create-patch marker); hence no module produced by
applying a rule's right side ever has an annotation. -/
theorem instantiate_never_carries_annot (t : ModuleTemplate) (env : Environment)
    (m : Module) (h : t.instantiate env = some m) : m.annot = none := by
  unfold ModuleTemplate.instantiate at h
  cases he : evalExpressions t.parameter_expressions env with
  | none => rw [he] at h; cases h
  | some vals =>
    rw [he] at h
    simp only [Option.map_some'] at h
    injection h with h2
    rw [← h2]

/-- Witness for C9: a template carrying the create-patch annotation still
instantiates to an annotation-free module. -/
theorem instantiate_never_carries_annot_witness :
    ({ identifier := 'A', parameter_values := [], annot := none } : Module).annot
      = none :=
  instantiate_never_carries_annot
    { identifier := 'A', parameter_expressions := [], annot := some .CreatePatch }
    Environment.new _ rfl

/-- C5: a position whose context is matched by zero rules contributes
exactly its own module, unchanged (identifier, parameter values and
annotation), at the corresponding place of the new module string, and the
random generator is not consumed. -/
theorem no_matching_rule_copies_module_unchanged (rules : List Rule)
    (s : List Module) (m : Module) (rest : List Module) (i : Nat) (rng : RngState)
    (h : collectMatching rules (buildContext m s i) = some []) :
    rewriteFrom rules s (m :: rest) i rng =
      (rewriteFrom rules s rest (i + 1) rng).map (fun pr => (m :: pr.1, pr.2)) := by
  have hm : rewriteModule rules (buildContext m s i) m rng = some ([m], rng) := by
    unfold rewriteModule
    rw [h]
    rfl
  cases hrec : rewriteFrom rules s rest (i + 1) rng with
  | none => simp [rewriteFrom, hm, hrec]
  | some pr => simp [rewriteFrom, hm, hrec]

/-- Witness for C5: with no rules at all, the module `B(7)` (with an
annotation) is copied verbatim. -/
theorem no_matching_rule_copies_module_unchanged_witness :
    rewriteFrom [] [{ identifier := 'B', parameter_values := [7], annot := some .CreatePatch }]
        [{ identifier := 'B', parameter_values := [7], annot := some .CreatePatch }] 0 zeroRng =
      (rewriteFrom []
          [{ identifier := 'B', parameter_values := [7], annot := some .CreatePatch }]
          [] 1 zeroRng).map
        (fun pr => ({ identifier := 'B', parameter_values := [7], annot := some .CreatePatch } :: pr.1, pr.2)) :=
  no_matching_rule_copies_module_unchanged [] _ _ [] 0 zeroRng rfl

/-- C1: whenever at least one matching rule at a position is deterministic
(probability < 0), the rule applied is the first deterministic rule in
rule-definition order (`collectMatching` preserves the order of the
engine's rule list, and `first` is the head of its deterministic filter);
every other matching rule is ignored, and the choice neither depends on
nor advances the random generator. -/
theorem iterate_applies_first_deterministic_rule (rules : List Rule)
    (context : ModuleContext) (m : Module) (ms : List Rule) (first : Rule)
    (rest : List Rule) (rng rng' : RngState)
    (hm : collectMatching rules context = some ms)
    (hd : ms.filter Rule.is_deterministic = first :: rest) :
    chooseMatch ms rng = some (first, rng) ∧
    chooseMatch ms rng' = some (first, rng') ∧
    rewriteModule rules context m rng =
      ((first.pattern.bind context).bind fun env =>
        (instantiateAll first.right_side env).bind fun block =>
          some (block, rng)) := by
  have hc : ∀ r : RngState, chooseMatch ms r = some (first, r) := by
    intro r
    unfold chooseMatch
    rw [hd]
  have hne : ms ≠ [] := by
    intro hnil
    rw [hnil] at hd
    simp [List.filter] at hd
  refine ⟨hc rng, hc rng', ?_⟩
  simp [rewriteModule, hm, hne, hc rng]

/-- A concrete deterministic rule `A -> B` for the C1 witness. -/
def detRule : Rule :=
  { pattern := { match_left := none,
                 match_center := { identifier := 'A', parameters := [], annot := none },
                 match_right := none,
                 condition := .Const true },
    right_side := [{ identifier := 'B', parameter_expressions := [], annot := none }],
    probability := -1 }

/-- A probabilistic competitor `A -> C` for the C1 witness. -/
def probRule : Rule :=
  { pattern := { match_left := none,
                 match_center := { identifier := 'A', parameters := [], annot := none },
                 match_right := none,
                 condition := .Const true },
    right_side := [{ identifier := 'C', parameter_expressions := [], annot := none }],
    probability := 3 }

/-- Witness for C1: a probabilistic rule listed first and a deterministic
rule listed second both match `A`; the deterministic one is chosen, for
two different generator states. -/
theorem iterate_applies_first_deterministic_rule_witness :
    chooseMatch [probRule, detRule] zeroRng = some (detRule, zeroRng) ∧
    chooseMatch [probRule, detRule] ⟨fun _ => 1 / 2, 5⟩ =
      some (detRule, ⟨fun _ => 1 / 2, 5⟩) ∧
    rewriteModule [probRule, detRule]
        ⟨none, { identifier := 'A', parameter_values := [], annot := none }, none⟩
        { identifier := 'A', parameter_values := [], annot := none } zeroRng =
      ((detRule.pattern.bind
          ⟨none, { identifier := 'A', parameter_values := [], annot := none }, none⟩).bind
        fun env =>
          (instantiateAll detRule.right_side env).bind fun block =>
            some (block, zeroRng)) :=
  iterate_applies_first_deterministic_rule [probRule, detRule] _ _
    [probRule, detRule] detRule [] zeroRng ⟨fun _ => 1 / 2, 5⟩
    (by with_unfolding_all rfl) (by with_unfolding_all rfl)

/-- Weighted-slice access equals `List.get` when the index is in range. -/
theorem getW_eq_get {T : Type} [Inhabited T] (l : List (Weighted T)) (i : Nat)
    (h : i < l.length) : getW l i = l.get ⟨i, h⟩ := by
  rw [getW, List.getD_eq_get]

/-- Prefix sums of a list of non-negative rationals grow with the prefix
length. -/
theorem sum_take_mono {l : List ℚ} (h : ∀ x ∈ l, 0 ≤ x) {a b : Nat}
    (hab : a ≤ b) : (l.take a).sum ≤ (l.take b).sum := by
  induction l generalizing a b with
  | nil => simp
  | cons x xs ih =>
    cases a with
    | zero =>
      simp only [List.take_zero, List.sum_nil]
      exact List.sum_nonneg (fun y hy => h y (List.take_subset _ _ hy))
    | succ a' =>
      cases b with
      | zero => omega
      | succ b' =>
        simp only [List.take_succ_cons, List.sum_cons]
        have hxs := ih (fun y hy => h y (List.mem_cons_of_mem _ hy))
          (Nat.le_of_succ_le_succ hab)
        linarith

/-- The rule the specification states for sampling (claim side, written
from the spec's words, for comparison with the code): the first item, in
input order, whose cumulative weight is greater than or equal to the
draw. -/
def claimedSample {T : Type} (l : List (Weighted T)) (draw : ℚ) :
    Option (Weighted T) :=
  (cumulate 0 l).find? (fun w => decide (draw ≤ w.weight))

/-- C2, counterexample: with weights `[1, 1]` (cumulative `[1, 2]`) and the
in-range draw `1`, the code returns the item at index 1, while the claimed
rule (first cumulative weight ≥ draw, ties to the earlier item) picks the
item at index 0. -/
theorem sample_tie_goes_to_later_item_cex :
    (WeightedChoice.new [(⟨1, 0⟩ : Weighted Nat), ⟨1, 1⟩]).map
        (fun wc => wc.sampleAt 1) = some 1 ∧
    (claimedSample [(⟨1, 0⟩ : Weighted Nat), ⟨1, 1⟩] 1).map Weighted.item
        = some 0 ∧
    (1 : Nat) ≠ 0 :=
  ⟨by with_unfolding_all rfl, by with_unfolding_all rfl, by decide⟩

/-- Correctness of the binary-search loop of `WeightedChoice::sample`:
over a slice with non-decreasing weights, if `j` is the first index whose
weight exceeds `draw` and the window `(idx, idx + modifier]` contains `j`,
the loop returns `j - 1`.  The fuel only needs to dominate `modifier`. -/
theorem searchGo_spec {T : Type} [Inhabited T] (items : List (Weighted T))
    (draw : ℚ)
    (hmono : ∀ a b : Nat, a ≤ b → b < items.length →
      (getW items a).weight ≤ (getW items b).weight)
    (j : Nat) (hjlen : j < items.length)
    (hjgt : draw < (getW items j).weight)
    (hjle : ∀ k, k < j → (getW items k).weight ≤ draw) :
    ∀ fuel modifier idx, modifier ≤ fuel → idx + modifier ≤ items.length →
      idx < j → j ≤ idx + modifier →
      searchGo items draw fuel idx modifier = j - 1 := by
  intro fuel
  induction fuel with
  | zero =>
    intro modifier idx hmf _ hij hji
    omega
  | succ fuel ih =>
    intro modifier idx hmf hlen hij hji
    by_cases hm : 1 < modifier
    · simp only [searchGo, if_pos hm]
      by_cases hle : (getW items (idx + modifier / 2)).weight ≤ draw
      · rw [if_pos hle]
        apply ih
        · omega
        · omega
        · by_contra hc
          push_neg at hc
          have hmle := hmono j (idx + modifier / 2) hc (by omega)
          linarith
        · omega
      · rw [if_neg hle]
        apply ih
        · omega
        · omega
        · exact hij
        · by_contra hc
          push_neg at hc
          exact hle (hjle (idx + modifier / 2) hc)
    · simp only [searchGo, if_neg hm]
      omega

/-- C2, amended: for a non-empty list with non-negative weights and a
strictly positive total, and a draw in `[0, total)`,
`WeightedChoice::sample` returns the **first** item whose cumulative
weight is **strictly greater** than the draw; in particular when the draw
exactly equals an item's cumulative weight the **later** item is
returned.  `j` below is that first index, and the final conjunct states
its minimality. -/
theorem sample_returns_first_item_strictly_above_draw {T : Type} [Inhabited T]
    (l : List (Weighted T)) (wc : WeightedChoice T)
    (hwc : WeightedChoice.new l = some wc)
    (hw : ∀ w ∈ l, 0 ≤ w.weight)
    (draw : ℚ) (h0 : 0 ≤ draw) (h1 : draw < totalWeight l) :
    ∃ hj : (cumulate 0 l).findIdx (fun w => decide (draw < w.weight)) < l.length,
      wc.sampleAt draw =
        (l.get ⟨(cumulate 0 l).findIdx (fun w => decide (draw < w.weight)), hj⟩).item ∧
      ∀ k < (cumulate 0 l).findIdx (fun w => decide (draw < w.weight)),
        (getW (cumulate 0 l) k).weight ≤ draw := by
  obtain ⟨hitems, hne, hpos⟩ := new_elim hwc
  have hn : 0 < l.length := List.length_pos.mpr hne
  have hclen : (cumulate 0 l).length = l.length := cumulate_length 0 l
  have hcw : ∀ k, (hk : k < l.length) →
      (getW (cumulate 0 l) k).weight = ((l.take (k + 1)).map Weighted.weight).sum := by
    intro k hk
    rw [getW_cumulate l 0 k hk, zero_add]
  have hitem : ∀ k, (hk : k < l.length) →
      (getW (cumulate 0 l) k).item = (l.get ⟨k, hk⟩).item := by
    intro k hk
    rw [getW_cumulate l 0 k hk]
  have hwm : ∀ x ∈ l.map Weighted.weight, 0 ≤ x := by
    intro x hx
    obtain ⟨w, hwl, rfl⟩ := List.mem_map.mp hx
    exact hw w hwl
  have hmono : ∀ a b : Nat, a ≤ b → b < (cumulate 0 l).length →
      (getW (cumulate 0 l) a).weight ≤ (getW (cumulate 0 l) b).weight := by
    intro a b hab hb
    rw [hclen] at hb
    rw [hcw a (lt_of_le_of_lt hab hb), hcw b hb, List.map_take, List.map_take]
    exact sum_take_mono hwm (by omega)
  have hlast : (getW (cumulate 0 l) (l.length - 1)).weight = totalWeight l := by
    rw [hcw _ (by omega), totalWeight_eq_sum, List.map_take]
    have hei : l.length - 1 + 1 = (l.map Weighted.weight).length := by
      rw [List.length_map]; omega
    rw [hei, List.take_length]
  have hex : ∃ x ∈ cumulate 0 l, (fun w => decide (draw < w.weight)) x = true := by
    refine ⟨(cumulate 0 l).get ⟨l.length - 1, by omega⟩, List.get_mem _ _ _, ?_⟩
    rw [← getW_eq_get (cumulate 0 l) (l.length - 1) (by omega)]
    simp only [decide_eq_true_eq]
    rw [hlast]
    exact h1
  have hjlen : (cumulate 0 l).findIdx (fun w => decide (draw < w.weight))
      < (cumulate 0 l).length := List.findIdx_lt_length_of_exists hex
  set j := (cumulate 0 l).findIdx (fun w => decide (draw < w.weight)) with hjdef
  have hjlenl : j < l.length := by omega
  have hjgt : draw < (getW (cumulate 0 l) j).weight := by
    have hp := @List.findIdx_get _ (fun (w : Weighted T) => decide (draw < w.weight))
      (cumulate 0 l) hjlen
    rw [← getW_eq_get (cumulate 0 l) j hjlen] at hp
    exact of_decide_eq_true hp
  have hjle : ∀ k, k < j → (getW (cumulate 0 l) k).weight ≤ draw := by
    intro k hk
    have hkc : k < (cumulate 0 l).length := lt_trans hk hjlen
    rw [hjdef] at hk
    have hp := List.not_of_lt_findIdx
      (p := fun (w : Weighted T) => decide (draw < w.weight)) hk
    have hgg : (cumulate 0 l)[k] = getW (cumulate 0 l) k :=
      (getW_eq_get _ k hkc).symm
    rw [hgg] at hp
    exact le_of_not_lt (of_decide_eq_false hp)
  unfold WeightedChoice.sampleAt
  rw [hitems]
  by_cases h00 : draw < (getW (cumulate 0 l) 0).weight
  · rw [if_pos h00]
    have hj0 : j = 0 := by
      obtain ⟨w0, cs, hcons⟩ : ∃ w0 cs, cumulate 0 l = w0 :: cs := by
        cases l with
        | nil => exact absurd rfl hne
        | cons w ws => exact ⟨_, _, rfl⟩
      have hw0 : (getW (cumulate 0 l) 0).weight = w0.weight := by
        rw [hcons]; rfl
      rw [hw0] at h00
      rw [hjdef, hcons, List.findIdx_cons]
      simp [decide_eq_true h00]
    rw [hj0]
    refine ⟨by omega, ?_, fun k hk => absurd hk (by omega)⟩
    exact hitem 0 (by omega)
  · rw [if_neg h00]
    have hj1 : 1 ≤ j := by
      by_contra hc
      push_neg at hc
      have hj0 : j = 0 := by omega
      rw [hj0] at hjgt
      exact h00 hjgt
    have hs := searchGo_spec (cumulate 0 l) draw hmono j hjlen hjgt hjle
      (cumulate 0 l).length (cumulate 0 l).length 0 le_rfl (by omega) (by omega)
      (by omega)
    have hj11 : j - 1 + 1 = j := by omega
    simp only [hs, hj11]
    exact ⟨hjlenl, hitem j hjlenl, fun k hk => hjle k hk⟩

/-- Witness for the amended C2 at weights `[1, 3]` (cumulative `[1, 4]`)
and the in-range tie draw `1`: the first cumulative weight strictly above
the draw is at index 1 and that item is returned. -/
theorem sample_returns_first_item_strictly_above_draw_witness :
    ∃ hj : (cumulate 0 [(⟨1, 10⟩ : Weighted Nat), ⟨3, 20⟩]).findIdx
        (fun w => decide ((1 : ℚ) < w.weight))
          < [(⟨1, 10⟩ : Weighted Nat), ⟨3, 20⟩].length,
      (⟨[⟨1, 10⟩, ⟨4, 20⟩], ⟨0, 4⟩⟩ : WeightedChoice Nat).sampleAt 1 =
        ([(⟨1, 10⟩ : Weighted Nat), ⟨3, 20⟩].get
          ⟨(cumulate 0 [(⟨1, 10⟩ : Weighted Nat), ⟨3, 20⟩]).findIdx
              (fun w => decide ((1 : ℚ) < w.weight)), hj⟩).item ∧
      ∀ k < (cumulate 0 [(⟨1, 10⟩ : Weighted Nat), ⟨3, 20⟩]).findIdx
          (fun w => decide ((1 : ℚ) < w.weight)),
        (getW (cumulate 0 [(⟨1, 10⟩ : Weighted Nat), ⟨3, 20⟩]) k).weight ≤ 1 :=
  sample_returns_first_item_strictly_above_draw
    [(⟨1, 10⟩ : Weighted Nat), ⟨3, 20⟩] ⟨[⟨1, 10⟩, ⟨4, 20⟩], ⟨0, 4⟩⟩
    (by with_unfolding_all rfl) (by with_unfolding_all decide) 1
    (by with_unfolding_all decide) (by with_unfolding_all decide)

/-- The engine configuration of the parameter-propagation scenario:
freshly constructed engine, iteration depth 5, any random generator
state. -/
def propagationEngine (rng : RngState) : IterationEngine :=
  { axiomSeq := [], module_string := [], rules := [],
    iteration_depth := 5, rng := rng }

set_option maxRecDepth 100000 in
/-- C6: parsing the rule text `A(x) -> A(x+1)` and the axiom text `A(0)`
and iterating with depth 5 yields exactly one module, `A` with the single
parameter value 5 — for every random generator state (the parsed rule is
deterministic, so the generator is never consumed). -/
theorem parameter_propagation_depth_five (rng : RngState) :
    ((((LSystem.mk (propagationEngine rng)).parse "A(0)"
          "A(x) -> A(x+1)").iteration_engine.iterate)).map
        (fun e => e.module_string) =
      some [{ identifier := 'A', parameter_values := [5], annot := none }] := by
  with_unfolding_all rfl

/-!
## Pattern matching (C4)
-/

/-- All parameter names a pattern declares, in source order: center, then
left, then right signature. -/
def ModulePattern.declaredParameters (p : ModulePattern) : List Char :=
  p.match_center.parameters ++
    (match p.match_left with | some s => s.parameters | none => []) ++
    (match p.match_right with | some s => s.parameters | none => [])

/-- The positional name/value pairs one side of a pattern binds (claim
side): empty when the pattern has no signature there or the context has no
module there. -/
def sidePairs (sig? : Option ModuleSignature) (m? : Option Module) :
    List (Char × ℚ) :=
  match sig?, m? with
  | some sig, some m => sig.parameters.zip m.parameter_values
  | _, _ => []

/-- The environment the claim describes: each declared parameter name
bound positionally to the corresponding module's parameter value. -/
def claimEnv (p : ModulePattern) (context : ModuleContext) : Environment :=
  ⟨sidePairs (some p.match_center) (some context.center) ++
    sidePairs p.match_left context.left ++
    sidePairs p.match_right context.right⟩

theorem has_parameter_iff_mem (env : Environment) (c : Char) :
    env.has_parameter c = true ↔ c ∈ env.parameter_map.map Prod.fst := by
  unfold Environment.has_parameter Environment.get?
  cases hf : env.parameter_map.find? (fun pr => decide (pr.1 = c)) with
  | none =>
    simp only [Option.map_none', Option.isSome_none, Bool.false_eq_true, false_iff]
    intro hc
    obtain ⟨pr, hm, he⟩ := List.mem_map.mp hc
    exact (List.find?_eq_none.mp hf pr hm) (by simp [he])
  | some pr =>
    simp only [Option.map_some', Option.isSome_some, true_iff]
    have hm := List.mem_of_find?_eq_some hf
    have hp := List.find?_some hf
    simp only [decide_eq_true_eq] at hp
    exact List.mem_map.mpr ⟨pr, hm, hp⟩

theorem get?_eq_some_of_mem {m : List (Char × ℚ)} {c : Char} {v : ℚ}
    (hnd : (m.map Prod.fst).Nodup) (hm : (c, v) ∈ m) :
    Environment.get? ⟨m⟩ c = some v := by
  induction m with
  | nil => cases hm
  | cons pr rest ih =>
    simp only [List.map_cons, List.nodup_cons] at hnd
    rcases List.mem_cons.mp hm with heq | hrest
    · subst heq
      unfold Environment.get?
      simp [List.find?_cons]
    · have hc : pr.1 ≠ c := by
        intro he
        exact hnd.1 (he ▸ (List.mem_map.mpr ⟨(c, v), hrest, rfl⟩))
      unfold Environment.get? at ih ⊢
      simp only [List.find?_cons, decide_eq_false hc]
      exact ih hnd.2 hrest

theorem get?_eq_none_of_not_mem {m : List (Char × ℚ)} {c : Char}
    (hm : c ∉ m.map Prod.fst) :
    Environment.get? ⟨m⟩ c = none := by
  unfold Environment.get?
  rw [List.find?_eq_none.mpr, Option.map_none']
  intro pr hmem
  simp only [decide_eq_true_eq]
  intro he
  exact hm (List.mem_map.mpr ⟨pr, hmem, he⟩)

theorem get?_of_mem_rev {m : List (Char × ℚ)} {c : Char} {v : ℚ}
    (h : Environment.get? ⟨m⟩ c = some v) : (c, v) ∈ m := by
  unfold Environment.get? at h
  cases hf : m.find? (fun pr => decide (pr.1 = c)) with
  | none => rw [hf] at h; cases h
  | some pr =>
    rw [hf] at h
    simp only [Option.map_some'] at h
    have hm := List.mem_of_find?_eq_some hf
    have hp := List.find?_some hf
    simp only [decide_eq_true_eq] at hp
    have hpr : pr = (c, v) := by
      cases pr with
      | mk a b =>
        simp only at hp h
        injection h with hbv
        rw [hp, hbv]
    rw [← hpr]
    exact hm

theorem get?_congr_perm {m1 m2 : List (Char × ℚ)} (hperm : m1.Perm m2)
    (hnd : (m1.map Prod.fst).Nodup) (c : Char) :
    Environment.get? ⟨m1⟩ c = Environment.get? ⟨m2⟩ c := by
  have hnd2 : (m2.map Prod.fst).Nodup := ((hperm.map Prod.fst).nodup_iff).mp hnd
  cases h1 : Environment.get? ⟨m1⟩ c with
  | none =>
    have hnmem : c ∉ m1.map Prod.fst := by
      intro hc
      obtain ⟨pr, hpm, hpe⟩ := List.mem_map.mp hc
      have hsome : Environment.get? ⟨m1⟩ c = some pr.2 :=
        get?_eq_some_of_mem hnd (by rw [← hpe]; exact hpm)
      rw [h1] at hsome
      cases hsome
    have hnmem2 : c ∉ m2.map Prod.fst :=
      fun hc => hnmem (((hperm.map Prod.fst).mem_iff).mpr hc)
    rw [get?_eq_none_of_not_mem hnmem2]
  | some v =>
    have hm1 : (c, v) ∈ m1 := get?_of_mem_rev h1
    exact (get?_eq_some_of_mem hnd2 (hperm.mem_iff.mp hm1)).symm

theorem arith_eval_congr (env1 env2 : Environment)
    (h : ∀ c, env1.get? c = env2.get? c) :
    ∀ e : ArithmeticExpression, e.eval env1 = e.eval env2 := by
  intro e
  induction e with
  | Add l r ihl ihr => simp only [ArithmeticExpression.eval]; rw [ihl, ihr]
  | Sub l r ihl ihr => simp only [ArithmeticExpression.eval]; rw [ihl, ihr]
  | Mul l r ihl ihr => simp only [ArithmeticExpression.eval]; rw [ihl, ihr]
  | Div l r ihl ihr => simp only [ArithmeticExpression.eval]; rw [ihl, ihr]
  | Pow l r ihl ihr => simp only [ArithmeticExpression.eval]; rw [ihl, ihr]
  | Neg e ih => simp only [ArithmeticExpression.eval]; rw [ih]
  | Const x => rfl
  | Param q =>
    simp only [ArithmeticExpression.eval, Environment.has_parameter, h q]

theorem bool_eval_congr (env1 env2 : Environment)
    (h : ∀ c, env1.get? c = env2.get? c) :
    ∀ e : BooleanExpression, e.eval env1 = e.eval env2 := by
  intro e
  induction e with
  | Not e ih => simp only [BooleanExpression.eval]; rw [ih]
  | And l r ihl ihr => simp only [BooleanExpression.eval]; rw [ihl, ihr]
  | Or l r ihl ihr => simp only [BooleanExpression.eval]; rw [ihl, ihr]
  | Lth l r =>
    simp only [BooleanExpression.eval]
    rw [arith_eval_congr env1 env2 h l, arith_eval_congr env1 env2 h r]
  | Leq l r =>
    simp only [BooleanExpression.eval]
    rw [arith_eval_congr env1 env2 h l, arith_eval_congr env1 env2 h r]
  | Gth l r =>
    simp only [BooleanExpression.eval]
    rw [arith_eval_congr env1 env2 h l, arith_eval_congr env1 env2 h r]
  | Geq l r =>
    simp only [BooleanExpression.eval]
    rw [arith_eval_congr env1 env2 h l, arith_eval_congr env1 env2 h r]
  | Eq l r =>
    simp only [BooleanExpression.eval]
    rw [arith_eval_congr env1 env2 h l, arith_eval_congr env1 env2 h r]
  | Const b => rfl

/-- A successful parameter extraction appends the reversed name/value zip
in front of the starting environment, and requires at least as many values
as names. -/
theorem extract_parameters_eq_some {ps : List Char} {vs : List ℚ}
    {env env' : Environment}
    (h : extract_parameters ps vs env = some env') :
    ps.length ≤ vs.length ∧
      env'.parameter_map = (ps.zip vs).reverse ++ env.parameter_map := by
  induction ps generalizing vs env with
  | nil =>
    cases h
    simp
  | cons q qs ih =>
    cases vs with
    | nil => cases h
    | cons v vs =>
      simp only [extract_parameters, Environment.define_parameter] at h
      by_cases hhas : env.has_parameter q
      · rw [if_pos hhas] at h; cases h
      · rw [if_neg hhas] at h
        obtain ⟨hlen, hmap⟩ := ih h
        constructor
        · simpa using Nat.succ_le_succ hlen
        · rw [hmap]
          simp [List.zip_cons_cons, List.reverse_cons, List.append_assoc]

/-- Parameter extraction succeeds when there are enough values, the names
are distinct, and none of them is already bound. -/
theorem extract_parameters_succeeds {ps : List Char} {vs : List ℚ}
    {env : Environment} (hlen : ps.length ≤ vs.length) (hnd : ps.Nodup)
    (hfresh : ∀ c ∈ ps, env.has_parameter c = false) :
    ∃ env', extract_parameters ps vs env = some env' := by
  induction ps generalizing vs env with
  | nil => exact ⟨env, rfl⟩
  | cons q qs ih =>
    cases vs with
    | nil => simp at hlen
    | cons v vs =>
      simp only [List.nodup_cons] at hnd
      have hq : env.has_parameter q = false := hfresh q (List.mem_cons_self q qs)
      have hfresh' : ∀ c ∈ qs, (Environment.mk ((q, v) :: env.parameter_map)).has_parameter c = false := by
        intro c hcm
        rw [Bool.eq_false_iff]
        intro htrue
        rcases (has_parameter_iff_mem _ c).mp htrue with hmem
        simp only [List.map_cons] at hmem
        rcases List.mem_cons.mp hmem with heq | hrest
        · exact hnd.1 (heq ▸ hcm)
        · have : env.has_parameter c = true := (has_parameter_iff_mem env c).mpr hrest
          rw [hfresh c (List.mem_cons_of_mem q hcm)] at this
          cases this
      obtain ⟨env', henv'⟩ := ih (by simpa using Nat.le_of_succ_le_succ hlen) hnd.2 hfresh'
      refine ⟨env', ?_⟩
      simp only [extract_parameters, Environment.define_parameter, hq,
        Bool.false_eq_true, if_false, Option.some_bind]
      exact henv'

/-- `has_parameter` is false exactly outside the stored keys. -/
theorem has_parameter_false_of_not_mem {m : List (Char × ℚ)} {c : Char}
    (h : c ∉ m.map Prod.fst) :
    (Environment.mk m).has_parameter c = false :=
  Bool.eq_false_iff.mpr (fun ht => h ((has_parameter_iff_mem _ c).mp ht))

/-- The guard does not care in which order the (distinct) parameter
bindings were inserted: the environment `does_match` builds is a
permutation of the environment the claim describes, so the guard evaluates
the same on both. -/
theorem claim_env_congr (p : ModulePattern) (context : ModuleContext)
    (hnd : p.declaredParameters.Nodup)
    (hkeysC : (sidePairs (some p.match_center) (some context.center)).map Prod.fst
      = p.match_center.parameters)
    (hkeysL : (sidePairs p.match_left context.left).map Prod.fst =
      (match p.match_left with | some s => s.parameters | none => ([] : List Char)))
    (hkeysR : (sidePairs p.match_right context.right).map Prod.fst =
      (match p.match_right with | some s => s.parameters | none => ([] : List Char)))
    (m1 : List (Char × ℚ))
    (hm1 : m1 = (sidePairs p.match_right context.right).reverse ++
        ((sidePairs p.match_left context.left).reverse ++
         (sidePairs (some p.match_center) (some context.center)).reverse)) :
    p.condition.eval ⟨m1⟩ = p.condition.eval (claimEnv p context) := by
  have hperm : m1.Perm
      ((sidePairs (some p.match_center) (some context.center) ++
        sidePairs p.match_left context.left) ++
       sidePairs p.match_right context.right) := by
    rw [hm1]
    have h1 : ((sidePairs p.match_right context.right).reverse ++
        ((sidePairs p.match_left context.left).reverse ++
         (sidePairs (some p.match_center) (some context.center)).reverse)).Perm
        (sidePairs p.match_right context.right ++
          (sidePairs p.match_left context.left ++
           sidePairs (some p.match_center) (some context.center))) :=
      List.Perm.append (List.reverse_perm _)
        (List.Perm.append (List.reverse_perm _) (List.reverse_perm _))
    have h2 : (sidePairs p.match_right context.right ++
        (sidePairs p.match_left context.left ++
         sidePairs (some p.match_center) (some context.center))).Perm
        ((sidePairs p.match_left context.left ++
          sidePairs (some p.match_center) (some context.center)) ++
         sidePairs p.match_right context.right) := List.perm_append_comm
    have h3 : ((sidePairs p.match_left context.left ++
        sidePairs (some p.match_center) (some context.center)) ++
        sidePairs p.match_right context.right).Perm
        ((sidePairs (some p.match_center) (some context.center) ++
          sidePairs p.match_left context.left) ++
         sidePairs p.match_right context.right) :=
      (List.perm_append_comm).append_right _
    exact (h1.trans h2).trans h3
  have hkeys2 : ((((sidePairs (some p.match_center) (some context.center) ++
      sidePairs p.match_left context.left) ++
      sidePairs p.match_right context.right)).map Prod.fst).Nodup := by
    rw [List.map_append, List.map_append, hkeysC, hkeysL, hkeysR]
    have h2 := hnd
    unfold ModulePattern.declaredParameters at h2
    exact h2
  have hnd1 : (m1.map Prod.fst).Nodup := ((hperm.map Prod.fst).nodup_iff).mpr hkeys2
  have hpt : ∀ ch, Environment.get? ⟨m1⟩ ch =
      Environment.get? (claimEnv p context) ch :=
    fun ch => get?_congr_perm hperm hnd1 ch
  exact bool_eval_congr _ _ hpt p.condition

/-- The right-neighbour block followed by the guard: under the claim's
right-side condition with distinct, fresh names, it equals the guard
evaluated on `env1` extended with the right side's positional bindings. -/
theorem match_right_block_eq (p : ModulePattern) (context : ModuleContext)
    (env1 : Environment)
    (hright : ∀ sig, p.match_right = some sig → ∃ m, context.right = some m ∧
      sig.identifier = m.identifier ∧ sig.parameter_count = m.parameter_count)
    (hndR : (match p.match_right with
      | some s => s.parameters | none => ([] : List Char)).Nodup)
    (hfreshR : ∀ ch ∈ (match p.match_right with
      | some s => s.parameters | none => ([] : List Char)),
        env1.has_parameter ch = false) :
    p.match_right_block context env1 =
      p.condition.eval
        ⟨(sidePairs p.match_right context.right).reverse ++ env1.parameter_map⟩ := by
  rcases hmr : p.match_right with _ | mr
  · simp only [ModulePattern.match_right_block, hmr, sidePairs, List.reverse_nil,
      List.nil_append]
  · obtain ⟨rm, hcr, hrid, hrc⟩ := hright mr hmr
    rw [hmr] at hndR hfreshR
    simp only at hndR hfreshR
    have hlen : mr.parameters.length ≤ rm.parameter_values.length := by
      unfold ModuleSignature.parameter_count Module.parameter_count at hrc
      omega
    obtain ⟨env2, henv2⟩ := extract_parameters_succeeds hlen hndR hfreshR
    obtain ⟨-, hshape⟩ := extract_parameters_eq_some henv2
    have henv2' : env2 = ⟨(mr.parameters.zip rm.parameter_values).reverse ++
        env1.parameter_map⟩ := by
      cases env2
      simpa using hshape
    simp only [ModulePattern.match_right_block, hmr, hcr, sidePairs]
    rw [if_neg (by simp [hrid]), if_neg (by simp [hrc])]
    simp only [henv2, henv2']

/-- Under the claim's structural conditions (center identifier/arity
match, each required side present and matching, pairwise-distinct declared
names), `does_match` equals the guard evaluated on the environment the
claim describes. -/
theorem does_match_eq_eval (p : ModulePattern) (context : ModuleContext)
    (hnd : p.declaredParameters.Nodup)
    (hid : p.match_center.identifier = context.center.identifier)
    (hcc : p.match_center.parameter_count = context.center.parameter_count)
    (hleft : ∀ sig, p.match_left = some sig → ∃ m, context.left = some m ∧
      sig.identifier = m.identifier ∧ sig.parameter_count = m.parameter_count)
    (hright : ∀ sig, p.match_right = some sig → ∃ m, context.right = some m ∧
      sig.identifier = m.identifier ∧ sig.parameter_count = m.parameter_count) :
    p.does_match context = p.condition.eval (claimEnv p context) := by
  have hparts := hnd
  unfold ModulePattern.declaredParameters at hparts
  rw [List.nodup_append, List.nodup_append] at hparts
  obtain ⟨⟨hndC, hndL, hdisCL⟩, hndR, hdisCLR⟩ := hparts
  have hclen : p.match_center.parameters.length ≤
      context.center.parameter_values.length := by
    unfold ModuleSignature.parameter_count Module.parameter_count at hcc
    omega
  have hkeysC : (p.match_center.parameters.zip
      context.center.parameter_values).map Prod.fst = p.match_center.parameters :=
    List.map_fst_zip _ _ hclen
  have hkeysR : (sidePairs p.match_right context.right).map Prod.fst =
      (match p.match_right with | some s => s.parameters | none => ([] : List Char)) := by
    rcases hmr : p.match_right with _ | mr
    · simp [sidePairs]
    · obtain ⟨rm, hcr, hrid, hrc⟩ := hright mr hmr
      rw [hcr]
      simp only [sidePairs]
      apply List.map_fst_zip
      unfold ModuleSignature.parameter_count Module.parameter_count at hrc
      omega
  have hfreshC : ∀ ch ∈ p.match_center.parameters,
      Environment.new.has_parameter ch = false := fun ch _ => rfl
  obtain ⟨env0, henv0⟩ := extract_parameters_succeeds hclen hndC hfreshC
  obtain ⟨-, hshape0⟩ := extract_parameters_eq_some henv0
  have henv0' : env0 = ⟨(p.match_center.parameters.zip
      context.center.parameter_values).reverse⟩ := by
    cases env0
    simpa [Environment.new] using hshape0
  unfold ModulePattern.does_match
  rw [if_neg (by simp [hid]), if_neg (by simp [hcc])]
  rcases hml : p.match_left with _ | ml
  · -- no left requirement: the left pairs are empty
    simp only [hml] at hdisCLR
    simp only [List.append_nil] at hdisCLR
    simp only [henv0, hml]
    rw [match_right_block_eq p context env0 hright hndR ?hfresh]
    case hfresh =>
      intro ch hcm
      rw [henv0']
      apply has_parameter_false_of_not_mem
      rw [List.map_reverse, List.mem_reverse, hkeysC]
      intro hcc'
      exact hdisCLR hcc' hcm
    rw [henv0']
    exact claim_env_congr p context hnd (by simpa [sidePairs] using hkeysC)
      (by simp [hml, sidePairs]) hkeysR _ (by simp [hml, sidePairs])
  · -- left requirement present
    obtain ⟨lm, hcl, hlid, hlc⟩ := hleft ml hml
    simp only [hml] at hndL hdisCL hdisCLR
    have hllen : ml.parameters.length ≤ lm.parameter_values.length := by
      unfold ModuleSignature.parameter_count Module.parameter_count at hlc
      omega
    have hkeysL : (ml.parameters.zip lm.parameter_values).map Prod.fst =
        ml.parameters := List.map_fst_zip _ _ hllen
    have hfreshL : ∀ ch ∈ ml.parameters, env0.has_parameter ch = false := by
      intro ch hcm
      rw [henv0']
      apply has_parameter_false_of_not_mem
      rw [List.map_reverse, List.mem_reverse, hkeysC]
      intro hcc'
      exact hdisCL hcc' hcm
    obtain ⟨env1, henv1⟩ := extract_parameters_succeeds hllen hndL hfreshL
    obtain ⟨-, hshape1⟩ := extract_parameters_eq_some henv1
    have henv1' : env1 = ⟨(ml.parameters.zip lm.parameter_values).reverse ++
        (p.match_center.parameters.zip context.center.parameter_values).reverse⟩ := by
      cases env1
      rw [henv0'] at hshape1
      simpa using hshape1
    simp only [henv0, hml, hcl]
    rw [if_neg (by simp [hlid]), if_neg (by simp [hlc])]
    simp only [henv1]
    rw [match_right_block_eq p context env1 hright hndR ?hfresh]
    case hfresh =>
      intro ch hcm
      rw [henv1']
      apply has_parameter_false_of_not_mem
      rw [List.map_append, List.map_reverse, List.map_reverse, hkeysC, hkeysL]
      intro hcc'
      rcases List.mem_append.mp hcc' with hl | hc2
      · exact hdisCLR (List.mem_append.mpr (Or.inr (List.mem_reverse.mp hl))) hcm
      · exact hdisCLR (List.mem_append.mpr (Or.inl (List.mem_reverse.mp hc2))) hcm
    rw [henv1']
    exact claim_env_congr p context hnd (by simpa [sidePairs] using hkeysC)
      (by simpa [hml, hcl, sidePairs] using hkeysL) hkeysR _
      (by simp [hml, hcl, sidePairs])

/-- A successful match implies the claim's structural conditions: center
identifier and arity agree, and every required neighbour exists and agrees
in identifier and arity. -/
theorem does_match_true_structure (p : ModulePattern) (context : ModuleContext)
    (h : p.does_match context = some true) :
    p.match_center.identifier = context.center.identifier ∧
    p.match_center.parameter_count = context.center.parameter_count ∧
    (∀ sig, p.match_left = some sig → ∃ m, context.left = some m ∧
      sig.identifier = m.identifier ∧ sig.parameter_count = m.parameter_count) ∧
    (∀ sig, p.match_right = some sig → ∃ m, context.right = some m ∧
      sig.identifier = m.identifier ∧ sig.parameter_count = m.parameter_count) := by
  unfold ModulePattern.does_match ModulePattern.match_right_block at h
  repeat' split at h
  all_goals try exact absurd h (by simp)
  all_goals simp_all

/-- C4: for every pattern with pairwise-distinct declared parameter names,
`does_match` returns `true` exactly when (1) the center signature's
identifier and parameter count equal the center module's, (2) each side on
which the pattern has a signature has a context neighbour agreeing in
identifier and parameter count (a missing required neighbour is an
ordinary non-match), and (3) the guard evaluates to `true` in the
environment binding each declared parameter name positionally to the
corresponding module's parameter value. -/
theorem does_match_iff_signatures_and_guard (p : ModulePattern)
    (context : ModuleContext) (hnd : p.declaredParameters.Nodup) :
    p.does_match context = some true ↔
      (p.match_center.identifier = context.center.identifier ∧
       p.match_center.parameter_count = context.center.parameter_count ∧
       (∀ sig, p.match_left = some sig → ∃ m, context.left = some m ∧
         sig.identifier = m.identifier ∧ sig.parameter_count = m.parameter_count) ∧
       (∀ sig, p.match_right = some sig → ∃ m, context.right = some m ∧
         sig.identifier = m.identifier ∧ sig.parameter_count = m.parameter_count) ∧
       p.condition.eval (claimEnv p context) = some true) := by
  constructor
  · intro h
    obtain ⟨hid, hcc, hleft, hright⟩ := does_match_true_structure p context h
    refine ⟨hid, hcc, hleft, hright, ?_⟩
    rw [← does_match_eq_eval p context hnd hid hcc hleft hright]
    exact h
  · rintro ⟨hid, hcc, hleft, hright, hguard⟩
    rw [does_match_eq_eval p context hnd hid hcc hleft hright]
    exact hguard

/-- A two-sided context-sensitive pattern `A(x) < B(y) > C(z) : x < y`
for the C4 witness. -/
def patW : ModulePattern :=
  { match_left := some { identifier := 'A', parameters := ['x'], annot := none },
    match_center := { identifier := 'B', parameters := ['y'], annot := none },
    match_right := some { identifier := 'C', parameters := ['z'], annot := none },
    condition := .Lth (.Param 'x') (.Param 'y') }

/-- The context `A(1) [B(2)] C(3)` for the C4 witness. -/
def ctxW : ModuleContext :=
  { left := some { identifier := 'A', parameter_values := [1], annot := none },
    center := { identifier := 'B', parameter_values := [2], annot := none },
    right := some { identifier := 'C', parameter_values := [3], annot := none } }

/-- Witness for C4 at the concrete pattern and context above. -/
theorem does_match_iff_signatures_and_guard_witness :
    patW.does_match ctxW = some true ↔
      (patW.match_center.identifier = ctxW.center.identifier ∧
       patW.match_center.parameter_count = ctxW.center.parameter_count ∧
       (∀ sig, patW.match_left = some sig → ∃ m, ctxW.left = some m ∧
         sig.identifier = m.identifier ∧ sig.parameter_count = m.parameter_count) ∧
       (∀ sig, patW.match_right = some sig → ∃ m, ctxW.right = some m ∧
         sig.identifier = m.identifier ∧ sig.parameter_count = m.parameter_count) ∧
       patW.condition.eval (claimEnv patW ctxW) = some true) :=
  does_match_iff_signatures_and_guard patW ctxW (by decide)

end LSys
